import Mathlib

/-!
Verification of the `money` event-sourcing persistence engine.

The development shallowly embeds three source files:
  * `src/money/storage/postgres.py` — the `_PostgreSQLSimplifier` predicate
    compiler and the `PostgreSQLStorage` operations,
  * `src/money/framework/aggregate.py` — the aggregate replay engine,
  * `src/fete.core/fete/core/event.py` — the event registry metaclass.

Two collaborators referenced by that code are repository code that is not
under `src/` and are therefore modelled from the spec where needed: the
predicate algebra (`money/predicate.py`) and the visitor-dispatch helpers
(`money/storage/utils.py`).  Definitions modelled from the spec carry a doc
comment starting with `Modelled from the spec:`.
-/

namespace Money

/-- JSON-representable runtime values flowing through predicates and stored
payloads.  `str`/`int`/`bool` are the primitive scalars accepted by
`_smart_query` (Python `str`, `int`/`float`, `bool`; JSON numbers are
modelled by `Int`, floating point being out of scope), `ts` is a
`datetime.datetime` modelled as an abstract instant, and `other` stands for
every other Python value (lists, dicts, `None`, ...), which `_smart_query`
rejects. -/
inductive Value where
  | str (s : String)
  | int (n : Int)
  | bool (b : Bool)
  | ts (instant : Int)
  | other
  deriving DecidableEq, Repr

/-- The six comparison operators used by the scalar field predicates
(`=`, `<>`, `<`, `>`, `<=`, `>=` in the emitted SQL). -/
inductive Op where
  | eq | ne | lt | gt | le | ge
  deriving DecidableEq, Repr

/-- Truth of an operator given the ordering of the two compared values. -/
def Op.holds : Op → Ordering → Bool
  | .eq, o => o == Ordering.eq
  | .ne, o => o != Ordering.eq
  | .lt, o => o == Ordering.lt
  | .gt, o => o == Ordering.gt
  | .le, o => o != Ordering.gt
  | .ge, o => o != Ordering.lt

/-- Comparison of two values of the same runtime type; `none` when the types
differ (or either side is unrepresentable). -/
def Value.cmp : Value → Value → Option Ordering
  | .str a, .str b => some (compare a b)
  | .int a, .int b => some (compare a b)
  | .bool a, .bool b => some (compare a b)
  | .ts a, .ts b => some (compare a b)
  | _, _ => none

/-- Shared leaf comparison semantics for both the in-process predicate
evaluation and the database evaluation of the compiled fragment: same-typed
values compare by their order; differently-typed values are unequal (so `=`
is false and `<>` is true) and unordered (order operators are false).  This
is the single abstraction of the leaf behaviour of the two external
evaluators (CPython comparison, PostgreSQL jsonb comparison). -/
def Value.testOp (a : Value) (op : Op) (b : Value) : Bool :=
  match a.cmp b with
  | some o => op.holds o
  | none =>
    match op with
    | .ne => true
    | _ => false

/-- A typed/tagged record: an event (`event_type` plus deserialized payload
mapping) or a snapshot (`aggregate_type` plus payload mapping).  The schema
layer's `to_dict`/`from_dict` capability is modelled by carrying the payload
mapping directly. -/
structure Rec where
  typeName : String
  fields : List (String × Value)
  deriving DecidableEq, Repr

/-- Field lookup in a record's payload mapping. -/
def Rec.get (r : Rec) (f : String) : Option Value :=
  (r.fields.find? (fun p => p.1 == f)).map Prod.snd

/-- Modelled from the spec: the per-field predicate variants of the predicate
algebra (`money/predicate.py` is not under `src/`): scalar comparisons
`Eq/NotEq/Less/More/LessEq/MoreEq(value)`, `Between(lower, upper)` and
`OneOf(options)`. -/
inductive FieldPred where
  | Eq (expect : Value)
  | NotEq (expect : Value)
  | Less (limit : Value)
  | More (limit : Value)
  | LessEq (limit : Value)
  | MoreEq (limit : Value)
  | Between (lower upper : Value)
  | OneOf (options : List Value)
  deriving DecidableEq, Repr

/-- Modelled from the spec: the top-level predicate variants `Is(types)`
(type membership, types identified by their registered names) and
`Where(fields)` (a conjunction of per-field predicates). -/
inductive Pred where
  | Is (types : List String)
  | Where (fields : List (String × FieldPred))
  deriving DecidableEq, Repr

/-- Modelled from the spec: in-process evaluation of a field predicate
against the field's value ("re-evaluates any residual predicate in-process
against the rows actually returned"). -/
def FieldPred.eval : FieldPred → Value → Bool
  | .Eq e, v => v.testOp .eq e
  | .NotEq e, v => v.testOp .ne e
  | .Less l, v => v.testOp .lt l
  | .More l, v => v.testOp .gt l
  | .LessEq l, v => v.testOp .le l
  | .MoreEq l, v => v.testOp .ge l
  | .Between lo hi, v => v.testOp .ge lo && v.testOp .le hi
  | .OneOf opts, v => opts.any (fun o => v.testOp .eq o)

/-- Modelled from the spec: in-process evaluation of a predicate against a
record.  `Is` is type-name membership; `Where` requires every listed field
to be present and to satisfy its field predicate. -/
def Pred.eval : Pred → Rec → Bool
  | .Is types, r => types.contains r.typeName
  | .Where flds, r =>
    flds.all (fun p =>
      match r.get p.1 with
      | some v => p.2.eval v
      | none => false)

/-- One atomic comparison of the SQL WHERE fragment emitted by
`_PostgreSQLSimplifier._smart_query`: `cmpJson field op lit` is the abstract
syntax of the text `data_field->%s op %s::jsonb` with parameters
`(field, json literal)`, and `cmpTs field op instant` is the abstract syntax
of `timestamp_convert(data_field->>%s) op %s::timestamp` with parameters
`(field, iso string)`. -/
inductive Atom where
  | cmpJson (field : String) (op : Op) (lit : Value)
  | cmpTs (field : String) (op : Op) (instant : Int)
  deriving DecidableEq, Repr

/-- The per-field fragment grammar emitted by the simplifier: a single
comparison, the conjunction emitted by `on_between`, or the disjunction
emitted by `on_one_of`. -/
inductive FieldFrag where
  | atom (a : Atom)
  | andF (lowerA upperA : Atom)
  | orF (opts : List Atom)
  deriving DecidableEq, Repr

/-- The top-level fragment grammar: the `type_field IN (...)` clause emitted
by `on_is`, or the AND-conjunction emitted by `on_where`. -/
inductive Frag where
  | typeIn (names : List String)
  | conjF (sub : List FieldFrag)
  deriving DecidableEq, Repr

/-- Database-side evaluation of an atomic comparison against a row.  A
missing field makes the extracted operand SQL NULL, so the comparison is
unknown and the row is not selected; a timestamp cast applies only to a
stored timestamp value. -/
def Atom.eval (r : Rec) : Atom → Bool
  | .cmpJson f op lit =>
    match r.get f with
    | some v => v.testOp op lit
    | none => false
  | .cmpTs f op n =>
    match r.get f with
    | some (.ts m) => Value.ts m |>.testOp op (Value.ts n)
    | _ => false

/-- Database-side evaluation of a per-field fragment. -/
def FieldFrag.eval (r : Rec) : FieldFrag → Bool
  | .atom a => a.eval r
  | .andF la ha => la.eval r && ha.eval r
  | .orF opts => opts.any (Atom.eval r)

/-- Database-side evaluation of a top-level fragment. -/
def Frag.eval (r : Rec) : Frag → Bool
  | .typeIn names => names.contains r.typeName
  | .conjF sub => sub.all (FieldFrag.eval r)

/-- Failures of predicate compilation: the `RuntimeError` raised by
`_smart_query` on an unsupported value type, and the `assert` inside
`on_where`. -/
inductive SimplifyError where
  | unsupportedValueType
  | assertionFailed
  deriving DecidableEq, Repr

/-- The `SimplifiedPredicate` triple returned by the field-level simplifier
methods: optional residual predicate, optional native fragment, optional
parameter list. -/
abbrev SimplifiedField := Option FieldPred × Option FieldFrag × Option (List String)

/-- The `SimplifiedPredicate` triple at the top level. -/
abbrev SimplifiedPred := Option Pred × Option Frag × Option (List String)

/-- JSON literal encoding of a scalar parameter (`_pgjson.dumps`); string
escaping is abstracted away. -/
def Value.toJson : Value → String
  | .str s => "\"" ++ s ++ "\""
  | .int n => toString n
  | .bool b => if b then "true" else "false"
  | .ts n => "\"" ++ toString n ++ "\""
  | .other => "<unsupported>"

/-- ISO-8601 rendering of a timestamp instant (`datetime.isoformat`),
abstracted to its instant. -/
def isoOf (n : Int) : String := toString n

/-- `_PostgreSQLSimplifier._smart_query`: a primitive scalar lowers to a
jsonb comparison, a timestamp lowers to a timestamp-cast comparison, and any
other value type raises. -/
def _smart_query (field : String) (oper : Op) (val : Value) :
    Except SimplifyError (Atom × List String) :=
  match val with
  | .str _ | .int _ | .bool _ =>
    .ok (.cmpJson field oper val, [field, val.toJson])
  | .ts n => .ok (.cmpTs field oper n, [field, isoOf n])
  | .other => .error .unsupportedValueType

/-- `on_eq`. -/
def on_eq (field : String) (expect : Value) : Except SimplifyError SimplifiedField :=
  match _smart_query field .eq expect with
  | .error e => .error e
  | .ok (a, ps) => .ok (none, some (.atom a), some ps)

/-- `on_not_eq`. -/
def on_not_eq (field : String) (expect : Value) : Except SimplifyError SimplifiedField :=
  match _smart_query field .ne expect with
  | .error e => .error e
  | .ok (a, ps) => .ok (none, some (.atom a), some ps)

/-- `on_less`. -/
def on_less (field : String) (limit : Value) : Except SimplifyError SimplifiedField :=
  match _smart_query field .lt limit with
  | .error e => .error e
  | .ok (a, ps) => .ok (none, some (.atom a), some ps)

/-- `on_more`. -/
def on_more (field : String) (limit : Value) : Except SimplifyError SimplifiedField :=
  match _smart_query field .gt limit with
  | .error e => .error e
  | .ok (a, ps) => .ok (none, some (.atom a), some ps)

/-- `on_less_eq`. -/
def on_less_eq (field : String) (limit : Value) : Except SimplifyError SimplifiedField :=
  match _smart_query field .le limit with
  | .error e => .error e
  | .ok (a, ps) => .ok (none, some (.atom a), some ps)

/-- `on_more_eq`. -/
def on_more_eq (field : String) (limit : Value) : Except SimplifyError SimplifiedField :=
  match _smart_query field .ge limit with
  | .error e => .error e
  | .ok (a, ps) => .ok (none, some (.atom a), some ps)

/-- `on_between`: the conjunction of a `>=` on the lower bound and a `<=` on
the upper bound, parameters in that order. -/
def on_between (field : String) (lower upper : Value) :
    Except SimplifyError SimplifiedField :=
  match _smart_query field .ge lower with
  | .error e => .error e
  | .ok (la, lps) =>
    match _smart_query field .le upper with
    | .error e => .error e
    | .ok (ha, hps) => .ok (none, some (.andF la ha), some (lps ++ hps))

/-- The accumulation loop of `on_one_of`: one equality comparison per option,
clauses and parameters accumulated in option order, the first failure
propagating. -/
def on_one_of_loop (field : String) :
    List Value → Except SimplifyError (List Atom × List String)
  | [] => .ok ([], [])
  | opt :: rest =>
    match _smart_query field .eq opt with
    | .error e => .error e
    | .ok (a, ps) =>
      match on_one_of_loop field rest with
      | .error e => .error e
      | .ok (atoms, pss) => .ok (a :: atoms, ps ++ pss)

/-- `on_one_of`: the disjunction of per-option equality comparisons. -/
def on_one_of (field : String) (options : List Value) :
    Except SimplifyError SimplifiedField :=
  match on_one_of_loop field options with
  | .error e => .error e
  | .ok (atoms, ps) => .ok (none, some (.orF atoms), some ps)

/-- Modelled from the spec: `visit_field_predicate`
(`money/storage/utils.py`, not under `src/`) dispatches a field predicate to
the simplifier method of its variant (one method per variant). -/
def visit_field_predicate (field : String) :
    FieldPred → Except SimplifyError SimplifiedField
  | .Eq e => on_eq field e
  | .NotEq e => on_not_eq field e
  | .Less l => on_less field l
  | .More l => on_more field l
  | .LessEq l => on_less_eq field l
  | .MoreEq l => on_more_eq field l
  | .Between lo hi => on_between field lo hi
  | .OneOf opts => on_one_of field opts

/-- `on_is`: a `type_field IN (...)` membership clause over the type names,
fully lowered (no residual). -/
def on_is (types : List String) : Except SimplifyError SimplifiedPred :=
  .ok (none, some (.typeIn types), some types)

/-- The accumulation loop of `on_where`: simplify each field predicate in
order and check the `assert pred is None and clause is not None and fparams
is not None` of the source; a failed assertion surfaces as
`SimplifyError.assertionFailed`. -/
def on_where_loop :
    List (String × FieldPred) → Except SimplifyError (List FieldFrag × List String)
  | [] => .ok ([], [])
  | (name, fpred) :: rest =>
    match visit_field_predicate name fpred with
    | .error e => .error e
    | .ok (none, some clause, some fparams) =>
      match on_where_loop rest with
      | .error e => .error e
      | .ok (cs, pss) => .ok (clause :: cs, fparams ++ pss)
    | .ok _ => .error .assertionFailed

/-- `on_where`: the AND-conjunction of the fully-lowered field fragments,
with no residual. -/
def on_where (fields : List (String × FieldPred)) :
    Except SimplifyError SimplifiedPred :=
  match on_where_loop fields with
  | .error e => .error e
  | .ok (cs, ps) => .ok (none, some (.conjF cs), some ps)

/-- Modelled from the spec: `visit_predicate` (`money/storage/utils.py`, not
under `src/`) dispatches a top-level predicate to the simplifier method of
its variant; `cast_simplified_predicate` only adjusts static types and is
the identity here. -/
def visit_predicate : Pred → Except SimplifyError SimplifiedPred
  | .Is types => on_is types
  | .Where flds => on_where flds

/-! ## The scoped transaction of `PostgreSQLStorage.get_cursor`

A storage operation body runs against a store of type `σ`, makes its writes
inside the open transaction, and either completes normally or fails with an
error of type `ε`; `get_cursor` begins the transaction, yields to the body,
commits the body's writes on normal completion, and on failure rolls the
store back to its pre-transaction contents and re-raises the original
error.  `txnOpen` records whether a transaction is still open when the
operation exits. -/

/-- The observable outcome of one storage operation. -/
structure TxOutcome (σ ε α : Type) where
  result : Except ε α
  store : σ
  txnOpen : Bool
  deriving Repr

/-- `PostgreSQLStorage.get_cursor`: BEGIN, run the body on the store, COMMIT
the body's writes on normal completion, ROLLBACK (discarding the body's
writes) and re-raise on any failure of the body. -/
def get_cursor {σ ε α : Type} (body : σ → σ × Except ε α) (store : σ) :
    TxOutcome σ ε α :=
  let res := body store
  match res.2 with
  | .ok a => ⟨.ok a, res.1, false⟩
  | .error e => ⟨.error e, store, false⟩

/-! ## The event log (`__events` table) -/

/-- One row of the `__events` table. -/
structure EventRow where
  seqNum : Nat
  eventType : String
  eventData : List (String × Value)
  deriving DecidableEq, Repr

/-- The `__events` table plus its `BIGSERIAL` sequence state. -/
structure EventStore where
  rows : List EventRow
  nextSeq : Nat
  deriving Repr

/-- A freshly bootstrapped event store. -/
def emptyEventStore : EventStore := ⟨[], 1⟩

/-- Well-formedness of an event store: sequence numbers strictly increase in
row order and stay below the serial counter. -/
def EventStore.wf (st : EventStore) : Prop :=
  st.rows.Pairwise (fun a b => a.seqNum < b.seqNum) ∧
    ∀ row ∈ st.rows, row.seqNum < st.nextSeq

/-- One `INSERT INTO __events (event_type, event_data) VALUES (%s, %s)`:
the row is appended with the next sequence number. -/
def insertEvent (st : EventStore) (e : Rec) : EventStore :=
  ⟨st.rows ++ [⟨st.nextSeq, e.typeName, e.fields⟩], st.nextSeq + 1⟩

/-- The body of `save_events`: insert each event, in call order. -/
def save_events_body (events : List Rec) (st : EventStore) : EventStore :=
  events.foldl insertEvent st

/-- `PostgreSQLStorage.save_events`, wrapped in its scoped transaction. -/
def save_events (st : EventStore) (events : List Rec) :
    TxOutcome EventStore SimplifyError Unit :=
  get_cursor (fun s => (save_events_body events s, .ok ())) st

/-- `ORDER BY sequence_num ASC`. -/
def sortBySeq (rows : List EventRow) : List EventRow :=
  rows.insertionSort (fun a b => a.seqNum ≤ b.seqNum)

/-- Deserialization of a selected row (`EventMeta.construct_named` rebuilding
the typed event from the stored name and payload mapping; the schema
capability is modelled as the identity on the mapping). -/
def rowToRec (row : EventRow) : Rec := ⟨row.eventType, row.eventData⟩

/-- The body of `load_events`: simplify the optional predicate, apply the
native WHERE fragment (when one was produced) at the storage boundary, order
by `sequence_num` ascending, deserialize each returned row, and keep the
rows accepted by the residual predicate (the source rebinds `query` to the
residual and keeps a row `if query is None or query(evt)`). -/
def load_events_body (query : Option Pred) (st : EventStore) :
    Except SimplifyError (List Rec) :=
  match query with
  | none => .ok ((sortBySeq st.rows).map rowToRec)
  | some p =>
    match visit_predicate p with
    | .error e => .error e
    | .ok (residual, whereClause, _params) =>
      let selected :=
        match whereClause with
        | some frag => (sortBySeq st.rows).filter (fun row => frag.eval (rowToRec row))
        | none => sortBySeq st.rows
      .ok ((selected.map rowToRec).filter (fun evt =>
        match residual with
        | none => true
        | some res => res.eval evt))

/-- `PostgreSQLStorage.load_events`, wrapped in its scoped transaction. -/
def load_events (st : EventStore) (query : Option Pred) :
    TxOutcome EventStore SimplifyError (List Rec) :=
  get_cursor (fun s => (s, load_events_body query s)) st

/-! ## The snapshot table (`__snapshots`) -/

/-- One row of the `__snapshots` table. -/
structure SnapRow where
  seqNum : Nat
  aggregateId : String
  aggregateType : String
  aggregateData : List (String × Value)
  deriving DecidableEq, Repr

/-- The `__snapshots` table plus its `BIGSERIAL` sequence state. -/
structure SnapStore where
  rows : List SnapRow
  nextSeq : Nat
  deriving Repr

/-- A freshly bootstrapped snapshot store. -/
def emptySnapStore : SnapStore := ⟨[], 1⟩

/-- Uniqueness of `aggregate_id` across the snapshot table (the table's
UNIQUE constraint). -/
def SnapStore.wf (st : SnapStore) : Prop :=
  (st.rows.map SnapRow.aggregateId).Nodup

/-- The in-memory aggregate as seen by `save_snapshots`: its class name, the
value of its id field, and its `to_dict` payload. -/
structure AggSnap where
  typeName : String
  aggIdValue : String
  payload : List (String × Value)
  deriving DecidableEq, Repr

/-- The snapshot identity string, exactly `TypeName:idValue`. -/
def snapIdentity (s : AggSnap) : String := s.typeName ++ ":" ++ s.aggIdValue

/-- One `INSERT INTO __snapshots ... ON CONFLICT(aggregate_id) DO UPDATE SET
aggregate_data=excluded.aggregate_data`: on conflict only the payload column
of the existing row is overwritten; otherwise a new row is appended with the
next sequence number (the serial advances in both cases). -/
def upsertSnapshot (st : SnapStore) (s : AggSnap) : SnapStore :=
  if st.rows.any (fun row => row.aggregateId == snapIdentity s) then
    ⟨st.rows.map (fun row =>
        if row.aggregateId == snapIdentity s then
          { row with aggregateData := s.payload }
        else row),
      st.nextSeq + 1⟩
  else
    ⟨st.rows ++ [⟨st.nextSeq, snapIdentity s, s.typeName, s.payload⟩],
      st.nextSeq + 1⟩

/-- The body of `save_snapshots`: upsert each snapshot, in call order. -/
def save_snapshots_body (snaps : List AggSnap) (st : SnapStore) : SnapStore :=
  snaps.foldl upsertSnapshot st

/-- `PostgreSQLStorage.save_snapshots`, wrapped in its scoped transaction. -/
def save_snapshots (st : SnapStore) (snaps : List AggSnap) :
    TxOutcome SnapStore SimplifyError Unit :=
  get_cursor (fun s => (save_snapshots_body snaps s, .ok ())) st

/-! ## The aggregate replay engine (`src/money/framework/aggregate.py`)

An aggregate type is modelled by its blank instance (`cls.__new__(cls)`),
its declared creation-event type name and its dispatch table
`__agg_events__` mapping an event type name to the handler.  Python event
classes are identified by their type names; the `isinstance` check on the
first replayed event is modelled as type-name equality (events are
reconstructed as concrete leaf classes).  The `ValueError`s raised by
`from_events` are the replay error the spec names `InvalidAggregateState`,
and the `KeyError` of a missing dispatch entry is `UnhandledEventType`. -/

/-- Replay failures. -/
inductive ReplayError where
  | invalidAggregateState
  | unhandledEventType (typeName : String)
  deriving DecidableEq, Repr

/-- An aggregate type definition, specialized to a state type `S`. -/
structure AggregateDef (S : Type) where
  blank : S
  aggCreate : String
  aggEvents : List (String × (S → Rec → S))

/-- `AggregateBase.apply_event`: look up the handler for the event's type in
the dispatch table and invoke it; a missing entry is the `KeyError` of
`__agg_events__[type(event)]`. -/
def apply_event {S : Type} (d : AggregateDef S) (s : S) (e : Rec) :
    Except ReplayError S :=
  match d.aggEvents.find? (fun p => p.1 == e.typeName) with
  | some p => .ok (p.2 s e)
  | none => .error (.unhandledEventType e.typeName)

/-- `AggregateBase.from_events`: fail on an empty event list; fail when the
first event is not an instance of the declared creation event type;
otherwise fold every event through `apply_event` starting from a blank
instance. -/
def from_events {S : Type} (d : AggregateDef S) (events : List Rec) :
    Except ReplayError S :=
  match events with
  | [] => .error .invalidAggregateState
  | e0 :: _ =>
    if e0.typeName == d.aggCreate then
      events.foldlM (apply_event d) d.blank
    else .error .invalidAggregateState

/-- `AggregateBase.load_all`: the list comprehension
`[cls.from_events(evts) for evts in events.values()]` over the mapping
returned by the loader entry point (modelled as an association list),
evaluating `from_events` on every value left to right, the first failure
propagating. -/
def load_all {S : Type} (d : AggregateDef S) :
    List (String × List Rec) → Except ReplayError (List S)
  | [] => .ok []
  | p :: rest => do
    let a ← from_events d p.2
    let restAggs ← load_all d rest
    .ok (a :: restAggs)

/-! ## The registries

`EventMeta.__new__` (`src/fete.core/fete/core/event.py`) keeps a
process-wide name-to-class map and rejects a duplicate name before
registering; `AggregateMeta.__new__`/`__init__`
(`src/money/framework/aggregate.py`) populate per-class metadata and run the
three structural validations, but keep no name registry and perform no
duplicate-name check.  Registries are modelled by their key lists. -/

/-- The `TypeError` raised on a duplicate event definition. -/
inductive RegistryError where
  | duplicateDefinition (name : String)
  deriving DecidableEq, Repr

/-- `EventMeta.__new__`: fail if the name is already registered, otherwise
register it. -/
def event_meta_new (registered : List String) (name : String) :
    Except RegistryError (List String) :=
  if registered.contains name then .error (.duplicateDefinition name)
  else .ok (registered ++ [name])

/-- An aggregate class declaration as seen by `AggregateMeta`, after the
`setdefault` population of `__agg_id__` (default "id"), `__agg_name__` and
`__agg_events__`. -/
structure AggClassDef where
  name : String
  aggMixin : Bool
  aggId : String
  schemaFields : List String
  aggEvents : List String
  aggCreate : Option String
  hasLoadEvents : Bool
  deriving DecidableEq, Repr

/-- `AggregateDefinitionError(agg_name, problem)`. -/
inductive AggregateDefinitionError where
  | definitionError (aggName problem : String)
  deriving DecidableEq, Repr

/-- `AggregateMeta._validate_aggregate_id`. -/
def _validate_aggregate_id (d : AggClassDef) : Except AggregateDefinitionError Unit :=
  if !(d.aggId != "" && d.schemaFields.contains d.aggId) then
    .error (.definitionError d.name ("must define an id field, or must specify __agg_id__"))
  else .ok ()

/-- `AggregateMeta._validate_creation_event`. -/
def _validate_creation_event (d : AggClassDef) : Except AggregateDefinitionError Unit :=
  match d.aggCreate with
  | none => .error (.definitionError d.name ("must specify a creation event in __agg_create__"))
  | some c =>
    if !(d.aggEvents.contains c) then
      .error (.definitionError d.name ("must specify a handler for creation event " ++ c))
    else .ok ()

/-- `AggregateMeta._validate_load_events_method`: `load_events` must exist,
must not be abstract, and must be callable; the three checks collapse to one
flag. -/
def _validate_load_events_method (d : AggClassDef) : Except AggregateDefinitionError Unit :=
  if !d.hasLoadEvents then
    .error (.definitionError d.name ("must define a load_events class method"))
  else .ok ()

/-- `AggregateMeta.__init__`: non-mixin classes run the three structural
validations, in source order. -/
def aggregate_meta_init (d : AggClassDef) : Except AggregateDefinitionError Unit :=
  if d.aggMixin then .ok ()
  else do
    _validate_aggregate_id d
    _validate_creation_event d
    _validate_load_events_method d

/-- Declaring an aggregate class: validation runs, and the class name is
added to the set of declared aggregate type names.  `AggregateMeta.__new__`
and `__init__` consult no name registry and make no duplicate-name check. -/
def aggregate_declare (declared : List String) (d : AggClassDef) :
    Except AggregateDefinitionError (List String) := do
  aggregate_meta_init d
  .ok (declared ++ [d.name])

/-! ## Lazy pool initialization (`PostgreSQLStorage.__get_pool`)

Concurrent callers of `__get_pool` are modelled as threads of a
nondeterministically interleaved transition system.  Each thread runs:
acquire the `asyncio.Lock`; test `self.__pool is not None`; if a pool
already exists go straight to releasing the lock; otherwise create the pool
and run the schema bootstrap (one `aiopg.create_pool` plus the CREATE TABLE
transaction, counted by `boots`), then assign `self.__pool`; finally release
the lock and return.  The `await` suspension points inside the guarded
region are separate transitions, but the shared fields `__pool` and the
bootstrap side effects are only touched while holding the lock, exactly as
in the source. -/

/-- The control point of one caller of `__get_pool`. -/
inductive ThreadPc where
  | idle
  | check
  | setPool
  | unlock
  | done
  deriving DecidableEq, Repr

/-- The shared state: the lock holder, whether `self.__pool` is assigned,
how many times the pool-creation-plus-schema-bootstrap ran, and every
caller's control point. -/
structure PoolState where
  lockHolder : Option Nat
  pool : Bool
  boots : Nat
  pcs : List ThreadPc
  deriving Repr

/-- All callers are at a control point satisfying `P`. -/
def PoolState.allPcs (s : PoolState) (P : ThreadPc → Prop) : Prop :=
  ∀ j pc, s.pcs.get? j = some pc → P pc

/-- All callers other than `i` are at a control point satisfying `P`. -/
def PoolState.othersPcs (s : PoolState) (i : Nat) (P : ThreadPc → Prop) : Prop :=
  ∀ j pc, j ≠ i → s.pcs.get? j = some pc → P pc

/-- The interleaved small-step relation of concurrent `__get_pool` calls. -/
inductive PoolStep : PoolState → PoolState → Prop where
  | acquire (s : PoolState) (i : Nat) :
      s.lockHolder = none → s.pcs.get? i = some .idle →
      PoolStep s { s with lockHolder := some i, pcs := s.pcs.set i .check }
  | checkHit (s : PoolState) (i : Nat) :
      s.lockHolder = some i → s.pcs.get? i = some .check → s.pool = true →
      PoolStep s { s with pcs := s.pcs.set i .unlock }
  | createAndBoot (s : PoolState) (i : Nat) :
      s.lockHolder = some i → s.pcs.get? i = some .check → s.pool = false →
      PoolStep s { s with boots := s.boots + 1, pcs := s.pcs.set i .setPool }
  | assignPool (s : PoolState) (i : Nat) :
      s.lockHolder = some i → s.pcs.get? i = some .setPool →
      PoolStep s { s with pool := true, pcs := s.pcs.set i .unlock }
  | release (s : PoolState) (i : Nat) :
      s.lockHolder = some i → s.pcs.get? i = some .unlock →
      PoolStep s { s with lockHolder := none, pcs := s.pcs.set i .done }

/-- The initial state of `n` concurrent first-time callers on a freshly
constructed storage engine. -/
def initPoolState (n : Nat) : PoolState :=
  ⟨none, false, 0, List.replicate n .idle⟩

/-- Reachability under arbitrary interleaving. -/
def PoolReachable (n : Nat) (s : PoolState) : Prop :=
  Relation.ReflTransGen PoolStep (initPoolState n) s

/-! ## Auxiliary predicates over the embedding -/

/-- Whether a value is of a type `_smart_query` rejects. -/
def Value.isOther : Value → Bool
  | .other => true
  | _ => false

/-- Whether a value is a timestamp. -/
def Value.isTs : Value → Bool
  | .ts _ => true
  | _ => false

/-- Whether a field predicate compares against at least one value of a type
`_smart_query` rejects. -/
def FieldPred.usesOther : FieldPred → Bool
  | .Eq v => v.isOther
  | .NotEq v => v.isOther
  | .Less v => v.isOther
  | .More v => v.isOther
  | .LessEq v => v.isOther
  | .MoreEq v => v.isOther
  | .Between lo hi => lo.isOther || hi.isOther
  | .OneOf opts => opts.any Value.isOther

/-- The comparison values of a field predicate. -/
def FieldPred.vals : FieldPred → List Value
  | .Eq v => [v]
  | .NotEq v => [v]
  | .Less v => [v]
  | .More v => [v]
  | .LessEq v => [v]
  | .MoreEq v => [v]
  | .Between lo hi => [lo, hi]
  | .OneOf opts => opts

/-- Timestamp coherence of one field comparison against a record: when the
field is present, each comparison value is a timestamp exactly when the
stored value is.  Outside this discipline the external evaluators genuinely
differ (the database compares the serialized ISO text or fails to cast it,
while the in-process comparison sees a `datetime`), so the push-down
equivalence is stated under it. -/
def fieldTsOk (r : Rec) (field : String) (fp : FieldPred) : Bool :=
  match r.get field with
  | some w => fp.vals.all (fun v => v.isTs == w.isTs)
  | none => true

/-- Timestamp coherence of a whole predicate against a record. -/
def Pred.tsOk (p : Pred) (r : Rec) : Bool :=
  match p with
  | .Is _ => true
  | .Where flds => flds.all (fun q => fieldTsOk r q.1 q.2)

/-- Structural well-formedness of a field predicate: `OneOf` has at least
one option (an empty option list would render the invalid SQL text `()`,
which is outside the fragment semantics). -/
def FieldPred.wfB : FieldPred → Bool
  | .OneOf opts => !opts.isEmpty
  | _ => true

/-- Structural well-formedness of a predicate: `Is` has at least one type
and `Where` at least one field, each field predicate well-formed (empty
lists would render the invalid SQL texts `IN ()` and `()`). -/
def Pred.wfB : Pred → Bool
  | .Is types => !types.isEmpty
  | .Where flds => !flds.isEmpty && flds.all (fun q => q.2.wfB)

/-- The rows produced by inserting events in call order starting at a given
sequence number. -/
def numberFrom : Nat → List Rec → List EventRow
  | _, [] => []
  | n, e :: es => ⟨n, e.typeName, e.fields⟩ :: numberFrom (n + 1) es

/-- The number of snapshot rows carrying a given aggregate identity. -/
def idCount (st : SnapStore) (k : String) : Nat :=
  (st.rows.filter (fun row => row.aggregateId == k)).length

/-- The inductive invariant of concurrent `__get_pool` callers: the shared
state is always in one of three phases — before any creation (no thread past
the existence check), mid-creation (exactly one thread, holding the lock,
between the bootstrap and the pool assignment), or after creation (the pool
assigned, the bootstrap having run exactly once). -/
def PoolInv (s : PoolState) : Prop :=
  (s.pool = false ∧ s.boots = 0 ∧
    ((s.lockHolder = none ∧ s.allPcs (fun pc => pc = .idle)) ∨
     (∃ i, s.lockHolder = some i ∧ s.pcs.get? i = some .check ∧
       s.othersPcs i (fun pc => pc = .idle)))) ∨
  (s.pool = false ∧ s.boots = 1 ∧
    (∃ i, s.lockHolder = some i ∧ s.pcs.get? i = some .setPool ∧
      s.othersPcs i (fun pc => pc = .idle))) ∨
  (s.pool = true ∧ s.boots = 1 ∧
    ((s.lockHolder = none ∧ s.allPcs (fun pc => pc = .idle ∨ pc = .done)) ∨
     (∃ i, s.lockHolder = some i ∧
       (s.pcs.get? i = some .check ∨ s.pcs.get? i = some .unlock) ∧
       s.othersPcs i (fun pc => pc = .idle ∨ pc = .done))))

/-! ## Concrete fixtures used by witnesses and counterexamples -/

/-- A small aggregate type over state `Nat`: created by an `AccountCreated`
event, counting applied events. -/
def exampleAggDef : AggregateDef Nat :=
  ⟨0, "AccountCreated", [("AccountCreated", fun s _ => s + 1), ("Renamed", fun s _ => s + 1)]⟩

/-- A structurally valid aggregate class declaration named `Account`. -/
def exampleAggClass : AggClassDef :=
  ⟨"Account", false, "id", ["id", "name"], ["AccountCreated"], some ("AccountCreated"), true⟩

/-- The spec's worked example predicate: `Where(amount = Between(10, 20))`. -/
def examplePred : Pred := .Where [("amount", .Between (.int 10) (.int 20))]

/-- The spec's worked example store: three events with `amount` 5, 15, 25. -/
def exampleEventStore : EventStore :=
  ⟨[⟨1, "EventA", [("amount", .int 5)]⟩,
    ⟨2, "EventA", [("amount", .int 15)]⟩,
    ⟨3, "EventA", [("amount", .int 25)]⟩], 4⟩

/-- A snapshot of aggregate `Account:a1`. -/
def exampleSnap1 : AggSnap := ⟨"Account", "a1", [("name", .str "X")]⟩

/-- A later snapshot of the same aggregate identity with a new payload. -/
def exampleSnap2 : AggSnap := ⟨"Account", "a1", [("name", .str "Y")]⟩

/-! ## C5 — scoped transactions -/

/-- C5: every storage operation runs inside one scoped transaction: it
begins, yields to the operation body, commits the body's writes on normal
completion, and on any failure of the body rolls the store back to its
pre-transaction contents and re-raises the original error; no exit path
leaves the transaction open. -/
theorem get_cursor_scoped {σ ε α : Type} (body : σ → σ × Except ε α) (store : σ) :
    (get_cursor body store).txnOpen = false ∧
    (∀ a, (get_cursor body store).result = .ok a →
      (get_cursor body store).store = (body store).1) ∧
    (∀ e, (get_cursor body store).result = .error e →
      (get_cursor body store).store = store ∧ (body store).2 = .error e) := by
  unfold get_cursor
  cases h : (body store).2 <;> simp [h]

/-- Witness for C5 at a concrete committing body and a concrete failing
body over a `Nat` store. -/
theorem get_cursor_scoped_witness :
    (get_cursor (fun s : Nat => (s + 1, (Except.ok 7 : Except Bool Nat))) 5).txnOpen = false ∧
    (get_cursor (fun s : Nat => (s + 1, (Except.ok 7 : Except Bool Nat))) 5).store = 6 ∧
    (get_cursor (fun s : Nat => (s + 37, (Except.error true : Except Bool Nat))) 5).store = 5 := by
  refine ⟨(get_cursor_scoped _ 5).1, ?_, ?_⟩
  · exact (get_cursor_scoped _ 5).2.1 7 rfl
  · exact ((get_cursor_scoped
      (fun s : Nat => (s + 37, (Except.error true : Except Bool Nat))) 5).2.2 true rfl).1

/-! ## C3 — `from_events` -/

/-- C3: `from_events` fails with the `InvalidAggregateState` replay error on
an empty event list, fails with the same error when the first event is not
of the declared creation-event type, and otherwise folds every event through
`apply_event` starting from a blank instance. -/
theorem from_events_spec {S : Type} (d : AggregateDef S) :
    from_events d ([] : List Rec) = .error .invalidAggregateState ∧
    (∀ (e : Rec) (es : List Rec), e.typeName ≠ d.aggCreate →
      from_events d (e :: es) = .error .invalidAggregateState) ∧
    (∀ (e : Rec) (es : List Rec), e.typeName = d.aggCreate →
      from_events d (e :: es) = (e :: es).foldlM (apply_event d) d.blank) := by
  refine ⟨rfl, ?_, ?_⟩ <;> intro e es h <;> simp [from_events, h]

/-- Witness for C3 at `exampleAggDef`: the empty replay and a wrong first
event fail, and a correct replay of two events folds to the materialized
state. -/
theorem from_events_spec_witness :
    from_events exampleAggDef [] = .error .invalidAggregateState ∧
    from_events exampleAggDef [⟨"Renamed", []⟩] = .error .invalidAggregateState ∧
    from_events exampleAggDef [⟨"AccountCreated", []⟩, ⟨"Renamed", []⟩] = .ok 2 := by
  refine ⟨(from_events_spec exampleAggDef).1, ?_, ?_⟩
  · exact (from_events_spec exampleAggDef).2.1 ⟨"Renamed", []⟩ [] (by decide)
  · exact Eq.trans
      ((from_events_spec exampleAggDef).2.2 ⟨"AccountCreated", []⟩ [⟨"Renamed", []⟩] rfl)
      rfl

/-! ## C4 — `load_all` -/

/-- Counterexample to C4: an id present in the loader's returned mapping
with an empty event list is not silently omitted — `load_all` maps
`from_events` over every value, so the empty value raises the
`InvalidAggregateState` replay error. -/
theorem load_all_empty_value_errors :
    load_all exampleAggDef [("a1", [])] = .error .invalidAggregateState := rfl

/-- C4 (amended): `load_all` maps `from_events` over every value of the
loader's returned mapping, never consulting the ids (so ids absent from the
mapping are silently omitted without error); on success each present id
contributes exactly one aggregate; a present id with an empty event list
causes a replay error instead of being skipped. -/
theorem load_all_amended {S : Type} (d : AggregateDef S) :
    (∀ (rename : String → String) (loaded : List (String × List Rec)),
      load_all d (loaded.map (fun p => (rename p.1, p.2))) = load_all d loaded) ∧
    (∀ (loaded : List (String × List Rec)) (res : List S),
      load_all d loaded = .ok res → res.length = loaded.length) ∧
    (∀ loaded : List (String × List Rec), (∃ p ∈ loaded, p.2 = []) →
      ∃ err, load_all d loaded = .error err) := by
  refine ⟨?_, ?_, ?_⟩
  · intro rename loaded
    induction loaded with
    | nil => rfl
    | cons p rest ih =>
      simp only [List.map_cons, load_all, ih]
  · intro loaded
    induction loaded with
    | nil =>
      intro res h
      have hres := Except.ok.inj h
      rw [← hres]
      rfl
    | cons p rest ih =>
      intro res h
      simp only [load_all] at h
      cases hfe : from_events d p.2 with
      | error e =>
        rw [hfe] at h
        exact Except.noConfusion h
      | ok a =>
        rw [hfe] at h
        cases hrest : load_all d rest with
        | error e =>
          rw [hrest] at h
          exact Except.noConfusion h
        | ok ras =>
          rw [hrest] at h
          have hres := Except.ok.inj h
          rw [← hres]
          simp [ih ras hrest]
  · intro loaded hex
    induction loaded with
    | nil => simp at hex
    | cons p rest ih =>
      obtain ⟨q, hq, hqe⟩ := hex
      rcases List.mem_cons.mp hq with hhead | htail
      · subst hhead
        obtain ⟨k, v⟩ := q
        have hv : v = [] := hqe
        subst hv
        exact ⟨.invalidAggregateState, rfl⟩
      · cases hfe : from_events d p.2 with
        | error e =>
          refine ⟨e, ?_⟩
          simp only [load_all, hfe]
          rfl
        | ok a =>
          obtain ⟨err, herr⟩ := ih ⟨q, htail, hqe⟩
          refine ⟨err, ?_⟩
          simp only [load_all, hfe, herr]
          rfl

/-- Witness for C4's amended theorem at `exampleAggDef`: renaming ids leaves
the result unchanged, a successful batch load yields one aggregate per
present id, and a present empty value yields an error. -/
theorem load_all_amended_witness :
    load_all exampleAggDef [("renamed-a1", [⟨"AccountCreated", []⟩])] =
      load_all exampleAggDef [("a1", [⟨"AccountCreated", []⟩])] ∧
    (1 : Nat) = 1 ∧
    (∃ err, load_all exampleAggDef [("a1", [])] = .error err) := by
  refine ⟨?_, ?_, ?_⟩
  · exact (load_all_amended exampleAggDef).1 (fun s => "renamed-" ++ s)
      [("a1", [⟨"AccountCreated", []⟩])]
  · exact (load_all_amended exampleAggDef).2.1 [("a1", [⟨"AccountCreated", []⟩])] [1] rfl
  · exact (load_all_amended exampleAggDef).2.2 [("a1", [])] ⟨("a1", []), by simp, rfl⟩

/-! ## C7 — the registries -/

/-- Counterexample to C7: declaring a second aggregate type with an
already-declared name succeeds — `AggregateMeta` performs no duplicate-name
check, so no `DuplicateDefinition` failure occurs on the aggregate side. -/
theorem aggregate_duplicate_name_accepted :
    aggregate_declare (["Account"]) exampleAggClass = .ok (["Account", "Account"]) := rfl

/-- C7 (amended): registering two event types under the same name fails with
the duplicate-definition error regardless of which names were registered
before; a fresh event name registers; aggregate declaration validates
structure only and accepts any name regardless of what was declared
before (no duplicate-name check). -/
theorem registries_amended :
    (∀ (registered : List String) (name : String), registered.contains name = true →
      event_meta_new registered name = .error (.duplicateDefinition name)) ∧
    (∀ (registered : List String) (name : String), registered.contains name = false →
      event_meta_new registered name = .ok (registered ++ [name])) ∧
    (∀ (declared : List String) (d : AggClassDef), aggregate_meta_init d = .ok () →
      aggregate_declare declared d = .ok (declared ++ [d.name])) := by
  refine ⟨?_, ?_, ?_⟩
  · intro registered name h
    have h2 : name ∈ registered := by simpa using h
    simp [event_meta_new, h2]
  · intro registered name h
    have h2 : name ∉ registered := by simpa using h
    simp [event_meta_new, h2]
  · intro declared d h
    simp only [aggregate_declare, h]
    rfl

/-- Witness for C7's amended theorem: a duplicate event name fails, a fresh
event name registers, and a structurally valid aggregate declaration is
accepted even when its name is already declared. -/
theorem registries_amended_witness :
    event_meta_new (["AccountCreated"]) ("AccountCreated") =
      .error (.duplicateDefinition ("AccountCreated")) ∧
    event_meta_new (["AccountCreated"]) ("Renamed") =
      .ok (["AccountCreated", "Renamed"]) ∧
    aggregate_declare (["Account"]) exampleAggClass = .ok (["Account", "Account"]) := by
  refine ⟨?_, ?_, ?_⟩
  · exact registries_amended.1 ["AccountCreated"] "AccountCreated" (by decide)
  · exact registries_amended.2.1 ["AccountCreated"] "Renamed" (by decide)
  · exact registries_amended.2.2 ["Account"] exampleAggClass rfl

/-! ## The simplifier dichotomy

Every field-level simplifier call either fully lowers — no residual, a
fragment and a parameter list — or raises the unsupported-value error.
These helpers feed C8 and C9. -/

theorem smart_query_dichotomy (field : String) (op : Op) (v : Value) :
    (∃ a ps, _smart_query field op v = .ok (a, ps)) ∨
      _smart_query field op v = .error .unsupportedValueType := by
  cases v <;> first
    | exact Or.inl ⟨_, _, rfl⟩
    | exact Or.inr rfl

theorem on_one_of_loop_dichotomy (field : String) (opts : List Value) :
    (∃ atoms ps, on_one_of_loop field opts = .ok (atoms, ps)) ∨
      on_one_of_loop field opts = .error .unsupportedValueType := by
  induction opts with
  | nil => exact Or.inl ⟨[], [], rfl⟩
  | cons o rest ih =>
    rcases smart_query_dichotomy field .eq o with ⟨a, ps, hsq⟩ | hsq
    · rcases ih with ⟨atoms, pss, hl⟩ | hl
      · refine Or.inl ⟨a :: atoms, ps ++ pss, ?_⟩
        simp only [on_one_of_loop, hsq, hl]
      · refine Or.inr ?_
        simp only [on_one_of_loop, hsq, hl]
    · refine Or.inr ?_
      simp only [on_one_of_loop, hsq]

theorem visit_field_dichotomy (field : String) (fp : FieldPred) :
    (∃ c ps, visit_field_predicate field fp = .ok (none, some c, some ps)) ∨
      visit_field_predicate field fp = .error .unsupportedValueType := by
  cases fp with
  | Eq v =>
    rcases smart_query_dichotomy field .eq v with ⟨a, ps, h⟩ | h
    · exact Or.inl ⟨.atom a, ps, by simp only [visit_field_predicate, on_eq, h]⟩
    · exact Or.inr (by simp only [visit_field_predicate, on_eq, h])
  | NotEq v =>
    rcases smart_query_dichotomy field .ne v with ⟨a, ps, h⟩ | h
    · exact Or.inl ⟨.atom a, ps, by simp only [visit_field_predicate, on_not_eq, h]⟩
    · exact Or.inr (by simp only [visit_field_predicate, on_not_eq, h])
  | Less v =>
    rcases smart_query_dichotomy field .lt v with ⟨a, ps, h⟩ | h
    · exact Or.inl ⟨.atom a, ps, by simp only [visit_field_predicate, on_less, h]⟩
    · exact Or.inr (by simp only [visit_field_predicate, on_less, h])
  | More v =>
    rcases smart_query_dichotomy field .gt v with ⟨a, ps, h⟩ | h
    · exact Or.inl ⟨.atom a, ps, by simp only [visit_field_predicate, on_more, h]⟩
    · exact Or.inr (by simp only [visit_field_predicate, on_more, h])
  | LessEq v =>
    rcases smart_query_dichotomy field .le v with ⟨a, ps, h⟩ | h
    · exact Or.inl ⟨.atom a, ps, by simp only [visit_field_predicate, on_less_eq, h]⟩
    · exact Or.inr (by simp only [visit_field_predicate, on_less_eq, h])
  | MoreEq v =>
    rcases smart_query_dichotomy field .ge v with ⟨a, ps, h⟩ | h
    · exact Or.inl ⟨.atom a, ps, by simp only [visit_field_predicate, on_more_eq, h]⟩
    · exact Or.inr (by simp only [visit_field_predicate, on_more_eq, h])
  | Between lo hi =>
    rcases smart_query_dichotomy field .ge lo with ⟨la, lps, hl⟩ | hl
    · rcases smart_query_dichotomy field .le hi with ⟨ha, hps, hh⟩ | hh
      · exact Or.inl ⟨.andF la ha, lps ++ hps,
          by simp only [visit_field_predicate, on_between, hl, hh]⟩
      · exact Or.inr (by simp only [visit_field_predicate, on_between, hl, hh])
    · exact Or.inr (by simp only [visit_field_predicate, on_between, hl])
  | OneOf opts =>
    rcases on_one_of_loop_dichotomy field opts with ⟨atoms, ps, h⟩ | h
    · exact Or.inl ⟨.orF atoms, ps, by simp only [visit_field_predicate, on_one_of, h]⟩
    · exact Or.inr (by simp only [visit_field_predicate, on_one_of, h])

theorem on_one_of_loop_unsupported (field : String) (opts : List Value)
    (h : opts.any Value.isOther = true) :
    on_one_of_loop field opts = .error .unsupportedValueType := by
  induction opts with
  | nil => simp at h
  | cons o rest ih =>
    cases o with
    | other => rfl
    | str s =>
      simp only [List.any_cons, Value.isOther, Bool.false_or] at h
      simp only [on_one_of_loop, ih h]
      rfl
    | int n =>
      simp only [List.any_cons, Value.isOther, Bool.false_or] at h
      simp only [on_one_of_loop, ih h]
      rfl
    | bool b =>
      simp only [List.any_cons, Value.isOther, Bool.false_or] at h
      simp only [on_one_of_loop, ih h]
      rfl
    | ts n =>
      simp only [List.any_cons, Value.isOther, Bool.false_or] at h
      simp only [on_one_of_loop, ih h]
      rfl

/-! ## C8 — unsupported predicate value types -/

/-- C8: compiling a scalar comparison against a value that is neither a
primitive scalar nor a timestamp fails with the unsupported-value-type
error (`RuntimeError` in `_smart_query`) at query-compilation time; the
comparison is never returned as a residual predicate instead. -/
theorem unsupported_value_hard_error :
    (∀ (field : String) (oper : Op),
      _smart_query field oper .other = .error .unsupportedValueType) ∧
    (∀ (field : String) (fp : FieldPred), fp.usesOther = true →
      visit_field_predicate field fp = .error .unsupportedValueType) := by
  constructor
  · intro field oper
    rfl
  · intro field fp h
    cases fp with
    | Eq v => cases v <;> simp [FieldPred.usesOther, Value.isOther] at h <;> rfl
    | NotEq v => cases v <;> simp [FieldPred.usesOther, Value.isOther] at h <;> rfl
    | Less v => cases v <;> simp [FieldPred.usesOther, Value.isOther] at h <;> rfl
    | More v => cases v <;> simp [FieldPred.usesOther, Value.isOther] at h <;> rfl
    | LessEq v => cases v <;> simp [FieldPred.usesOther, Value.isOther] at h <;> rfl
    | MoreEq v => cases v <;> simp [FieldPred.usesOther, Value.isOther] at h <;> rfl
    | Between lo hi =>
      cases lo <;> cases hi <;> simp [FieldPred.usesOther, Value.isOther] at h <;> rfl
    | OneOf opts =>
      have hl := on_one_of_loop_unsupported field opts
        (by simpa [FieldPred.usesOther] using h)
      simp only [visit_field_predicate, on_one_of, hl]

/-- Witness for C8: an equality comparison against an unsupported value
fails to compile. -/
theorem unsupported_value_hard_error_witness :
    _smart_query ("amount") Op.eq .other = .error .unsupportedValueType ∧
    visit_field_predicate ("amount") (.Eq .other) = .error .unsupportedValueType :=
  ⟨unsupported_value_hard_error.1 "amount" Op.eq,
   unsupported_value_hard_error.2 "amount" (.Eq .other) rfl⟩

theorem on_where_loop_dichotomy (fields : List (String × FieldPred)) :
    (∃ cs ps, on_where_loop fields = .ok (cs, ps)) ∨
      on_where_loop fields = .error .unsupportedValueType := by
  induction fields with
  | nil => exact Or.inl ⟨[], [], rfl⟩
  | cons q rest ih =>
    obtain ⟨name, fp⟩ := q
    rcases visit_field_dichotomy name fp with ⟨c, cps, hv⟩ | hv
    · rcases ih with ⟨cs, pss, hl⟩ | hl
      · refine Or.inl ⟨c :: cs, cps ++ pss, ?_⟩
        simp only [on_where_loop, hv, hl]
      · refine Or.inr ?_
        simp only [on_where_loop, hv, hl]
    · refine Or.inr ?_
      simp only [on_where_loop, hv]

/-! ## C9 — the `Where` assertion -/

/-- C9: every recursively simplified field sub-predicate of a `Where` fully
lowers (no residual, a fragment, a parameter list), so the assertion in
`on_where` can never fail; when `on_where` succeeds its result carries no
residual and its fragment is the AND-conjunction of the sub-fragments. -/
theorem where_fully_lowers (fields : List (String × FieldPred)) :
    on_where fields ≠ .error .assertionFailed ∧
    (∀ res frag ps, on_where fields = .ok (res, frag, ps) →
      res = none ∧ (∃ cs, frag = some (.conjF cs)) ∧ ∃ l, ps = some l) := by
  rcases on_where_loop_dichotomy fields with ⟨cs, ps0, hl⟩ | hl
  · have hw : on_where fields = .ok (none, some (.conjF cs), some ps0) := by
      simp only [on_where, hl]
    constructor
    · simp [hw]
    · intro res frag ps h
      rw [hw] at h
      have h2 := Except.ok.inj h
      injection h2 with ha hbc
      injection hbc with hb hc
      subst ha hb hc
      exact ⟨rfl, ⟨cs, rfl⟩, ⟨ps0, rfl⟩⟩
  · have hw : on_where fields = .error .unsupportedValueType := by
      simp only [on_where, hl]
    constructor
    · simp [hw]
    · intro res frag ps h
      rw [hw] at h
      exact Except.noConfusion h

/-- Witness for C9 at a concrete `Where` over a `Between`: the lowered
result has no residual, a conjunction fragment, and a parameter list. -/
theorem where_fully_lowers_witness :
    (on_where [("amount", FieldPred.Between (Value.int 10) (Value.int 20))] ≠
      .error .assertionFailed) ∧
    ((none : Option Pred) = none ∧
      (∃ cs, some (Frag.conjF [FieldFrag.andF (Atom.cmpJson ("amount") Op.ge (Value.int 10))
          (Atom.cmpJson ("amount") Op.le (Value.int 20))]) = some (Frag.conjF cs)) ∧
      (∃ l, some (["amount", "10", "amount", "20"] ++ ([] : List String)) = some l)) :=
  ⟨(where_fully_lowers [("amount", FieldPred.Between (Value.int 10) (Value.int 20))]).1,
   (where_fully_lowers [("amount", FieldPred.Between (Value.int 10) (Value.int 20))]).2
      none _ _ rfl⟩

/-! ## C1 — push-down correctness

The chain below shows that each fragment the simplifier emits evaluates, on
the database side, to exactly the in-process truth value of the predicate it
came from, and lifts that to `load_events`. -/

theorem fieldTsOk_val {r : Rec} {field : String} {fp : FieldPred}
    (h : fieldTsOk r field fp = true) {v : Value} (hv : v ∈ fp.vals) :
    ∀ w, r.get field = some w → v.isTs = w.isTs := by
  intro w hw
  unfold fieldTsOk at h
  rw [hw] at h
  exact eq_of_beq (List.all_eq_true.mp h v hv)

theorem smart_query_eval (field : String) (op : Op) (v : Value) (a : Atom)
    (ps : List String) (h : _smart_query field op v = .ok (a, ps)) (r : Rec)
    (hts : ∀ w, r.get field = some w → v.isTs = w.isTs) :
    a.eval r = (match r.get field with
      | some w => w.testOp op v
      | none => false) := by
  cases v with
  | other => exact Except.noConfusion h
  | ts n =>
    have ha : a = .cmpTs field op n := by
      have h2 := Except.ok.inj h
      exact (congrArg Prod.fst h2).symm
    subst ha
    cases hr : r.get field with
    | none => simp [Atom.eval, hr]
    | some w =>
      cases w with
      | ts m => simp [Atom.eval, hr]
      | str s => exact absurd (hts _ hr) (by simp [Value.isTs])
      | int k => exact absurd (hts _ hr) (by simp [Value.isTs])
      | bool b => exact absurd (hts _ hr) (by simp [Value.isTs])
      | other => exact absurd (hts _ hr) (by simp [Value.isTs])
  | str s =>
    have ha : a = .cmpJson field op (.str s) := by
      have h2 := Except.ok.inj h
      exact (congrArg Prod.fst h2).symm
    subst ha
    cases hr : r.get field with
    | none => simp [Atom.eval, hr]
    | some w => simp [Atom.eval, hr]
  | int k =>
    have ha : a = .cmpJson field op (.int k) := by
      have h2 := Except.ok.inj h
      exact (congrArg Prod.fst h2).symm
    subst ha
    cases hr : r.get field with
    | none => simp [Atom.eval, hr]
    | some w => simp [Atom.eval, hr]
  | bool b =>
    have ha : a = .cmpJson field op (.bool b) := by
      have h2 := Except.ok.inj h
      exact (congrArg Prod.fst h2).symm
    subst ha
    cases hr : r.get field with
    | none => simp [Atom.eval, hr]
    | some w => simp [Atom.eval, hr]

theorem on_one_of_loop_eval (field : String) (opts : List Value) (atoms : List Atom)
    (ps : List String) (h : on_one_of_loop field opts = .ok (atoms, ps)) (r : Rec)
    (hts : ∀ v ∈ opts, ∀ w, r.get field = some w → v.isTs = w.isTs) :
    atoms.any (Atom.eval r) = opts.any (fun o =>
      match r.get field with
      | some w => w.testOp .eq o
      | none => false) := by
  induction opts generalizing atoms ps with
  | nil =>
    have h2 := Except.ok.inj h
    have ha : ([] : List Atom) = atoms := congrArg Prod.fst h2
    rw [← ha]
    rfl
  | cons o rest ih =>
    cases hsq : _smart_query field .eq o with
    | error e =>
      simp only [on_one_of_loop, hsq] at h
      exact Except.noConfusion h
    | ok ares =>
      obtain ⟨a, ps0⟩ := ares
      cases hl : on_one_of_loop field rest with
      | error e =>
        simp only [on_one_of_loop, hsq, hl] at h
        exact Except.noConfusion h
      | ok lres =>
        obtain ⟨atoms2, ps2⟩ := lres
        simp only [on_one_of_loop, hsq, hl] at h
        have h2 := Except.ok.inj h
        have ha : a :: atoms2 = atoms := congrArg Prod.fst h2
        rw [← ha]
        simp only [List.any_cons]
        rw [smart_query_eval field .eq o a ps0 hsq r (hts o (List.mem_cons_self o rest))]
        rw [ih atoms2 ps2 hl (fun v hv => hts v (List.mem_cons_of_mem o hv))]

theorem visit_field_eval (field : String) (fp : FieldPred) (c : FieldFrag)
    (ps : List String)
    (h : visit_field_predicate field fp = .ok (none, some c, some ps))
    (r : Rec) (hts : fieldTsOk r field fp = true) :
    c.eval r = (match r.get field with
      | some w => fp.eval w
      | none => false) := by
  cases fp with
  | Eq v =>
    cases hsq : _smart_query field .eq v with
    | error e =>
      simp only [visit_field_predicate, on_eq, hsq] at h
      exact Except.noConfusion h
    | ok ares =>
      obtain ⟨a, ps0⟩ := ares
      simp only [visit_field_predicate, on_eq, hsq] at h
      have h2 := Except.ok.inj h
      have hc : FieldFrag.atom a = c := Option.some.inj (congrArg (fun t => t.2.1) h2)
      subst hc
      show a.eval r = _
      rw [smart_query_eval field .eq v a ps0 hsq r (fieldTsOk_val hts (by simp [FieldPred.vals]))]
      cases hr : r.get field <;> rfl
  | NotEq v =>
    cases hsq : _smart_query field .ne v with
    | error e =>
      simp only [visit_field_predicate, on_not_eq, hsq] at h
      exact Except.noConfusion h
    | ok ares =>
      obtain ⟨a, ps0⟩ := ares
      simp only [visit_field_predicate, on_not_eq, hsq] at h
      have h2 := Except.ok.inj h
      have hc : FieldFrag.atom a = c := Option.some.inj (congrArg (fun t => t.2.1) h2)
      subst hc
      show a.eval r = _
      rw [smart_query_eval field .ne v a ps0 hsq r (fieldTsOk_val hts (by simp [FieldPred.vals]))]
      cases hr : r.get field <;> rfl
  | Less v =>
    cases hsq : _smart_query field .lt v with
    | error e =>
      simp only [visit_field_predicate, on_less, hsq] at h
      exact Except.noConfusion h
    | ok ares =>
      obtain ⟨a, ps0⟩ := ares
      simp only [visit_field_predicate, on_less, hsq] at h
      have h2 := Except.ok.inj h
      have hc : FieldFrag.atom a = c := Option.some.inj (congrArg (fun t => t.2.1) h2)
      subst hc
      show a.eval r = _
      rw [smart_query_eval field .lt v a ps0 hsq r (fieldTsOk_val hts (by simp [FieldPred.vals]))]
      cases hr : r.get field <;> rfl
  | More v =>
    cases hsq : _smart_query field .gt v with
    | error e =>
      simp only [visit_field_predicate, on_more, hsq] at h
      exact Except.noConfusion h
    | ok ares =>
      obtain ⟨a, ps0⟩ := ares
      simp only [visit_field_predicate, on_more, hsq] at h
      have h2 := Except.ok.inj h
      have hc : FieldFrag.atom a = c := Option.some.inj (congrArg (fun t => t.2.1) h2)
      subst hc
      show a.eval r = _
      rw [smart_query_eval field .gt v a ps0 hsq r (fieldTsOk_val hts (by simp [FieldPred.vals]))]
      cases hr : r.get field <;> rfl
  | LessEq v =>
    cases hsq : _smart_query field .le v with
    | error e =>
      simp only [visit_field_predicate, on_less_eq, hsq] at h
      exact Except.noConfusion h
    | ok ares =>
      obtain ⟨a, ps0⟩ := ares
      simp only [visit_field_predicate, on_less_eq, hsq] at h
      have h2 := Except.ok.inj h
      have hc : FieldFrag.atom a = c := Option.some.inj (congrArg (fun t => t.2.1) h2)
      subst hc
      show a.eval r = _
      rw [smart_query_eval field .le v a ps0 hsq r (fieldTsOk_val hts (by simp [FieldPred.vals]))]
      cases hr : r.get field <;> rfl
  | MoreEq v =>
    cases hsq : _smart_query field .ge v with
    | error e =>
      simp only [visit_field_predicate, on_more_eq, hsq] at h
      exact Except.noConfusion h
    | ok ares =>
      obtain ⟨a, ps0⟩ := ares
      simp only [visit_field_predicate, on_more_eq, hsq] at h
      have h2 := Except.ok.inj h
      have hc : FieldFrag.atom a = c := Option.some.inj (congrArg (fun t => t.2.1) h2)
      subst hc
      show a.eval r = _
      rw [smart_query_eval field .ge v a ps0 hsq r (fieldTsOk_val hts (by simp [FieldPred.vals]))]
      cases hr : r.get field <;> rfl
  | Between lo hi =>
    cases hsq1 : _smart_query field .ge lo with
    | error e =>
      simp only [visit_field_predicate, on_between, hsq1] at h
      exact Except.noConfusion h
    | ok ares1 =>
      obtain ⟨la, lps⟩ := ares1
      cases hsq2 : _smart_query field .le hi with
      | error e =>
        simp only [visit_field_predicate, on_between, hsq1, hsq2] at h
        exact Except.noConfusion h
      | ok ares2 =>
        obtain ⟨ha2, hps⟩ := ares2
        simp only [visit_field_predicate, on_between, hsq1, hsq2] at h
        have h2 := Except.ok.inj h
        have hc : FieldFrag.andF la ha2 = c :=
          Option.some.inj (congrArg (fun t => t.2.1) h2)
        subst hc
        show (la.eval r && ha2.eval r) = _
        rw [smart_query_eval field .ge lo la lps hsq1 r
          (fieldTsOk_val hts (by simp [FieldPred.vals]))]
        rw [smart_query_eval field .le hi ha2 hps hsq2 r
          (fieldTsOk_val hts (by simp [FieldPred.vals]))]
        cases hr : r.get field <;> rfl
  | OneOf opts =>
    cases hl : on_one_of_loop field opts with
    | error e =>
      simp only [visit_field_predicate, on_one_of, hl] at h
      exact Except.noConfusion h
    | ok lres =>
      obtain ⟨atoms, pss⟩ := lres
      simp only [visit_field_predicate, on_one_of, hl] at h
      have h2 := Except.ok.inj h
      have hc : FieldFrag.orF atoms = c := Option.some.inj (congrArg (fun t => t.2.1) h2)
      subst hc
      show atoms.any (Atom.eval r) = _
      rw [on_one_of_loop_eval field opts atoms pss hl r
        (fun v hv => fieldTsOk_val hts (by simpa [FieldPred.vals] using hv))]
      cases hr : r.get field with
      | none => simp [FieldPred.eval]
      | some w => simp [FieldPred.eval]

theorem on_where_loop_eval (fields : List (String × FieldPred)) (cs : List FieldFrag)
    (ps : List String) (h : on_where_loop fields = .ok (cs, ps)) (r : Rec)
    (hts : ∀ q ∈ fields, fieldTsOk r q.1 q.2 = true) :
    cs.all (FieldFrag.eval r) = fields.all (fun q =>
      match r.get q.1 with
      | some w => q.2.eval w
      | none => false) := by
  induction fields generalizing cs ps with
  | nil =>
    have h2 := Except.ok.inj h
    have hc : ([] : List FieldFrag) = cs := congrArg Prod.fst h2
    rw [← hc]
    rfl
  | cons q rest ih =>
    obtain ⟨name, fp⟩ := q
    rcases visit_field_dichotomy name fp with ⟨c, cps, hv⟩ | hv
    · cases hl : on_where_loop rest with
      | error e =>
        simp only [on_where_loop, hv, hl] at h
        exact Except.noConfusion h
      | ok lres =>
        obtain ⟨cs2, ps2⟩ := lres
        simp only [on_where_loop, hv, hl] at h
        have h2 := Except.ok.inj h
        have hc : c :: cs2 = cs := congrArg Prod.fst h2
        rw [← hc]
        simp only [List.all_cons]
        rw [visit_field_eval name fp c cps hv r (hts (name, fp) (List.mem_cons_self _ _))]
        rw [ih cs2 ps2 hl (fun q2 hq2 => hts q2 (List.mem_cons_of_mem _ hq2))]
    · simp only [on_where_loop, hv] at h
      exact Except.noConfusion h

theorem visit_predicate_eval (p : Pred) (res : Option Pred) (frag : Option Frag)
    (ps : Option (List String))
    (h : visit_predicate p = .ok (res, frag, ps)) :
    res = none ∧ ∃ f, frag = some f ∧
      ∀ r : Rec, p.tsOk r = true → f.eval r = p.eval r := by
  cases p with
  | Is types =>
    have h2 := Except.ok.inj h
    have hres : (none : Option Pred) = res := congrArg (fun t => t.1) h2
    have hfrag : some (Frag.typeIn types) = frag := congrArg (fun t => t.2.1) h2
    refine ⟨hres.symm, Frag.typeIn types, hfrag.symm, ?_⟩
    intro r _
    rfl
  | Where flds =>
    rcases on_where_loop_dichotomy flds with ⟨cs, ps0, hl⟩ | hl
    · simp only [visit_predicate, on_where, hl] at h
      have h2 := Except.ok.inj h
      have hres : (none : Option Pred) = res := congrArg (fun t => t.1) h2
      have hfrag : some (Frag.conjF cs) = frag := congrArg (fun t => t.2.1) h2
      refine ⟨hres.symm, Frag.conjF cs, hfrag.symm, ?_⟩
      intro r htsOk
      show cs.all (FieldFrag.eval r) = _
      have hall : ∀ q ∈ flds, fieldTsOk r q.1 q.2 = true := by
        intro q hq
        have h3 : flds.all (fun q2 => fieldTsOk r q2.1 q2.2) = true := htsOk
        exact List.all_eq_true.mp h3 q hq
      rw [on_where_loop_eval flds cs ps0 hl r hall]
      rfl
    · simp only [visit_predicate, on_where, hl] at h
      exact Except.noConfusion h

theorem filter_map_comm {α β : Type} (g : α → β) (q : β → Bool) (l : List α) :
    (l.filter (fun x => q (g x))).map g = (l.map g).filter q := by
  induction l with
  | nil => rfl
  | cons x xs ih =>
    simp only [List.map_cons, List.filter_cons]
    cases hq : q (g x)
    · simpa [hq] using ih
    · simpa [hq] using ih

/-- C1: for every predicate the simplifier accepts, loading events after
compiling the predicate — native WHERE fragment applied as a pre-filter at
the storage boundary, then the returned residual applied in-process —
returns exactly the record set obtained by evaluating the uninterpreted
predicate directly in-process over the full unfiltered, ordered record set.
Stated for structurally well-formed predicates (no empty `IN`/`OR` lists,
which would render invalid SQL) over stores whose stored field types are
timestamp-coherent with the predicate's comparison values. -/
theorem pushdown_correct (p : Pred) (st : EventStore) (spr : SimplifiedPred)
    (hok : visit_predicate p = .ok spr) (hwf : p.wfB = true)
    (hts : ∀ row ∈ st.rows, p.tsOk (rowToRec row) = true) :
    (load_events st none).result = .ok ((sortBySeq st.rows).map rowToRec) ∧
    (load_events st (some p)).result =
      .ok (((sortBySeq st.rows).map rowToRec).filter (fun evt => p.eval evt)) := by
  refine ⟨rfl, ?_⟩
  obtain ⟨res, frag, ps⟩ := spr
  obtain ⟨hres, f, hfrag, heval⟩ := visit_predicate_eval p res frag ps hok
  subst hres
  subst hfrag
  have hfil : (sortBySeq st.rows).filter (fun row => f.eval (rowToRec row))
      = (sortBySeq st.rows).filter (fun row => p.eval (rowToRec row)) := by
    apply List.filter_congr
    intro row hrow
    exact heval (rowToRec row)
      (hts row ((List.perm_insertionSort _ st.rows).mem_iff.mp hrow))
  have hbody : load_events_body (some p) st =
      .ok (((sortBySeq st.rows).map rowToRec).filter (fun evt => p.eval evt)) := by
    simp only [load_events_body, hok, List.filter_true]
    rw [hfil, filter_map_comm]
  show (get_cursor (fun s => (s, load_events_body (some p) s)) st).result = _
  rw [get_cursor, hbody]

/-- Witness for C1 at the spec's worked example: `Where(amount =
Between(10, 20))` over events with `amount` 5, 15, 25 selects exactly the
`amount = 15` record, and the unfiltered load returns all three. -/
theorem pushdown_correct_witness :
    (load_events exampleEventStore none).result =
      .ok [⟨"EventA", [("amount", Value.int 5)]⟩,
           ⟨"EventA", [("amount", Value.int 15)]⟩,
           ⟨"EventA", [("amount", Value.int 25)]⟩] ∧
    (load_events exampleEventStore (some examplePred)).result =
      .ok [⟨"EventA", [("amount", Value.int 15)]⟩] := by
  have h := pushdown_correct examplePred exampleEventStore _ rfl rfl (by decide)
  exact ⟨h.1.trans (by rfl), h.2.trans (by rfl)⟩

/-! ## C2 — append then load -/

theorem save_events_body_eq (evts : List Rec) (st : EventStore) :
    save_events_body evts st =
      ⟨st.rows ++ numberFrom st.nextSeq evts, st.nextSeq + evts.length⟩ := by
  induction evts generalizing st with
  | nil => simp [save_events_body, numberFrom]
  | cons e es ih =>
    show save_events_body es (insertEvent st e) = _
    rw [ih]
    simp only [insertEvent, List.append_assoc, List.singleton_append, numberFrom,
      List.length_cons]
    congr 1
    omega

theorem numberFrom_seqNum (n : Nat) (evts : List Rec) :
    ∀ row ∈ numberFrom n evts, n ≤ row.seqNum := by
  induction evts generalizing n with
  | nil =>
    intro row h
    exact absurd h (by simp [numberFrom])
  | cons e es ih =>
    intro row h
    rcases List.mem_cons.mp h with h1 | h2
    · subst h1
      exact Nat.le_refl n
    · exact Nat.le_of_succ_le (ih (n + 1) row h2)

theorem numberFrom_pairwise (n : Nat) (evts : List Rec) :
    (numberFrom n evts).Pairwise (fun a b => a.seqNum < b.seqNum) := by
  induction evts generalizing n with
  | nil => exact List.Pairwise.nil
  | cons e es ih =>
    refine List.Pairwise.cons ?_ (ih (n + 1))
    intro row h
    exact Nat.lt_of_lt_of_le (Nat.lt_succ_self n) (numberFrom_seqNum (n + 1) es row h)

theorem numberFrom_map (n : Nat) (evts : List Rec) :
    (numberFrom n evts).map rowToRec = evts := by
  induction evts generalizing n with
  | nil => rfl
  | cons e es ih =>
    simp only [numberFrom, List.map_cons, ih]
    rfl

theorem sortBySeq_eq_of_pairwise {rows : List EventRow}
    (h : rows.Pairwise (fun a b => a.seqNum < b.seqNum)) : sortBySeq rows = rows :=
  List.Sorted.insertionSort_eq (List.Pairwise.imp (fun hab => Nat.le_of_lt hab) h)

/-- C2: saving a sequence of events and then loading with no predicate
returns exactly those events, after whatever the store already held, in
append order — insertion order determines `sequence_num` order and
`load_events` orders by `sequence_num` ascending.  On a fresh store the
load returns exactly the appended events. -/
theorem save_then_load_ordered (evts : List Rec) (st : EventStore) (hwf : st.wf) :
    (load_events (save_events st evts).store none).result =
      .ok (((sortBySeq st.rows).map rowToRec) ++ evts) ∧
    (load_events (save_events emptyEventStore evts).store none).result = .ok evts := by
  have key : ∀ (st2 : EventStore), st2.wf →
      (load_events (save_events st2 evts).store none).result =
        .ok (((sortBySeq st2.rows).map rowToRec) ++ evts) := by
    intro st2 hwf2
    have hres : (load_events (save_events st2 evts).store none).result =
        .ok ((sortBySeq ((save_events st2 evts).store.rows)).map rowToRec) := rfl
    have hstore : (save_events st2 evts).store =
        EventStore.mk (st2.rows ++ numberFrom st2.nextSeq evts)
          (st2.nextSeq + evts.length) :=
      save_events_body_eq evts st2
    rw [hres, hstore]
    have hpw : (st2.rows ++ numberFrom st2.nextSeq evts).Pairwise
        (fun a b => a.seqNum < b.seqNum) := by
      rw [List.pairwise_append]
      refine ⟨hwf2.1, numberFrom_pairwise _ _, ?_⟩
      intro a ha b hb
      exact Nat.lt_of_lt_of_le (hwf2.2 a ha) (numberFrom_seqNum _ _ b hb)
    rw [show sortBySeq (st2.rows ++ numberFrom st2.nextSeq evts) =
        st2.rows ++ numberFrom st2.nextSeq evts from sortBySeq_eq_of_pairwise hpw]
    rw [sortBySeq_eq_of_pairwise hwf2.1, List.map_append, numberFrom_map]
  refine ⟨key st hwf, ?_⟩
  have hempty : emptyEventStore.wf :=
    ⟨List.Pairwise.nil, fun row h => absurd h (List.not_mem_nil row)⟩
  have h2 := key emptyEventStore hempty
  simpa [sortBySeq, emptyEventStore] using h2

/-- Witness for C2: appending two concrete events to a fresh store and
loading with no predicate returns exactly those two events in order. -/
theorem save_then_load_ordered_witness :
    (load_events (save_events emptyEventStore
        [⟨"AccountCreated", []⟩, ⟨"Renamed", []⟩]).store none).result =
      .ok [⟨"AccountCreated", []⟩, ⟨"Renamed", []⟩] :=
  (save_then_load_ordered [⟨"AccountCreated", []⟩, ⟨"Renamed", []⟩] emptyEventStore
    ⟨List.Pairwise.nil, fun row h => absurd h (List.not_mem_nil row)⟩).2

/-! ## C6 — snapshot upsert -/

theorem upsert_map_id (rows : List SnapRow) (k : String) (payload : List (String × Value)) :
    (rows.map (fun row => if row.aggregateId == k
        then { row with aggregateData := payload } else row)).map SnapRow.aggregateId
      = rows.map SnapRow.aggregateId := by
  rw [List.map_map]
  apply List.map_congr_left
  intro row hrow
  cases hc : row.aggregateId == k
  · simp [Function.comp, hc]
  · simp [Function.comp, hc]

theorem filter_id_length_eq_count (rows : List SnapRow) (k : String) :
    (rows.filter (fun r => r.aggregateId == k)).length
      = (rows.map SnapRow.aggregateId).count k := by
  induction rows with
  | nil => rfl
  | cons r rest ih =>
    cases hc : r.aggregateId == k <;>
      simp [List.filter_cons, List.count_cons, hc, ih]

theorem mem_ids_of_any (rows : List SnapRow) (k : String)
    (h : rows.any (fun row => row.aggregateId == k) = true) :
    k ∈ rows.map SnapRow.aggregateId := by
  obtain ⟨row, hmem, hbeq⟩ := List.any_eq_true.mp h
  exact List.mem_map.mpr ⟨row, hmem, eq_of_beq hbeq⟩

theorem filter_eq_nil_of_any_false (rows : List SnapRow) (k : String)
    (h : rows.any (fun row => row.aggregateId == k) = false) :
    rows.filter (fun row => row.aggregateId == k) = [] := by
  induction rows with
  | nil => rfl
  | cons r rest ih =>
    simp only [List.any_cons, Bool.or_eq_false_iff] at h
    simp [List.filter_cons, h.1, ih h.2]

theorem upsert_idCount (st : SnapStore) (s : AggSnap) (hwf : st.wf) :
    idCount (upsertSnapshot st s) (snapIdentity s) = 1 := by
  unfold idCount upsertSnapshot
  cases hc : st.rows.any (fun row => row.aggregateId == snapIdentity s) with
  | true =>
    simp only [hc, if_true]
    rw [filter_id_length_eq_count, upsert_map_id]
    exact List.count_eq_one_of_mem hwf (mem_ids_of_any _ _ hc)
  | false =>
    simp only [hc, Bool.false_eq_true, if_false]
    simp [List.filter_append, List.filter_cons, filter_eq_nil_of_any_false _ _ hc]

theorem upsert_payload (st : SnapStore) (s : AggSnap) :
    ∀ row ∈ (upsertSnapshot st s).rows,
      row.aggregateId = snapIdentity s → row.aggregateData = s.payload := by
  intro row hrow hid
  unfold upsertSnapshot at hrow
  cases hc : st.rows.any (fun r => r.aggregateId == snapIdentity s) with
  | true =>
    simp only [hc, if_true] at hrow
    obtain ⟨r0, hr0, heq⟩ := List.mem_map.mp hrow
    cases hc2 : r0.aggregateId == snapIdentity s with
    | true =>
      rw [← heq]
      simp [hc2]
    | false =>
      rw [← heq] at hid
      simp only [hc2, Bool.false_eq_true, if_false] at hid
      rw [hid] at hc2
      simp at hc2
  | false =>
    simp only [hc, Bool.false_eq_true, if_false] at hrow
    rcases List.mem_append.mp hrow with hin | hnew
    · have hany : st.rows.any (fun r => r.aggregateId == snapIdentity s) = true :=
        List.any_eq_true.mpr ⟨row, hin, by rw [hid]; exact beq_self_eq_true _⟩
      rw [hc] at hany
      cases hany
    · rw [List.mem_singleton] at hnew
      rw [hnew]

theorem upsert_frame_conflict (st : SnapStore) (s : AggSnap) :
    ∀ row ∈ st.rows, row.aggregateId = snapIdentity s →
      ({ row with aggregateData := s.payload } : SnapRow) ∈ (upsertSnapshot st s).rows := by
  intro row hrow hid
  have hany : st.rows.any (fun r => r.aggregateId == snapIdentity s) = true :=
    List.any_eq_true.mpr ⟨row, hrow, by rw [hid]; exact beq_self_eq_true _⟩
  unfold upsertSnapshot
  simp only [hany, if_true]
  apply List.mem_map.mpr
  refine ⟨row, hrow, ?_⟩
  simp [hid]

theorem upsert_frame_other (st : SnapStore) (s : AggSnap) :
    ∀ row ∈ st.rows, row.aggregateId ≠ snapIdentity s →
      row ∈ (upsertSnapshot st s).rows := by
  intro row hrow hne
  unfold upsertSnapshot
  cases hc : st.rows.any (fun r => r.aggregateId == snapIdentity s) with
  | true =>
    simp only [hc, if_true]
    apply List.mem_map.mpr
    refine ⟨row, hrow, ?_⟩
    simp [hne]
  | false =>
    simp only [hc, Bool.false_eq_true, if_false]
    exact List.mem_append_left _ hrow

theorem upsert_wf (st : SnapStore) (s : AggSnap) (hwf : st.wf) :
    (upsertSnapshot st s).wf := by
  unfold SnapStore.wf at hwf ⊢
  unfold upsertSnapshot
  cases hc : st.rows.any (fun r => r.aggregateId == snapIdentity s) with
  | true =>
    simp only [hc, if_true]
    rw [upsert_map_id]
    exact hwf
  | false =>
    simp only [hc, Bool.false_eq_true, if_false]
    rw [List.map_append, List.nodup_append]
    refine ⟨hwf, List.nodup_singleton _, ?_⟩
    intro a ha hb
    simp only [List.map_cons, List.map_nil, List.mem_singleton] at hb
    subst hb
    obtain ⟨row, hrow, hid2⟩ := List.mem_map.mp ha
    have hany : st.rows.any (fun r => r.aggregateId == snapIdentity s) = true :=
      List.any_eq_true.mpr ⟨row, hrow, by rw [hid2]; exact beq_self_eq_true _⟩
    rw [hc] at hany
    cases hany

/-- C6: `save_snapshots` upserts one row per aggregate identity.  After
saving a snapshot and then saving another snapshot of the same identity,
exactly one row carries that identity and it holds the latest payload; on
conflict only the `aggregate_data` column of the pre-existing row is
overwritten (its `sequence_num` and `aggregate_type` are unchanged), rows
with other identities are untouched, and uniqueness of `aggregate_id` is
preserved. -/
theorem snapshot_upsert_spec (st : SnapStore) (s1 s2 : AggSnap) (hwf : st.wf)
    (hid : snapIdentity s1 = snapIdentity s2) :
    idCount (save_snapshots (save_snapshots st [s1]).store [s2]).store
        (snapIdentity s2) = 1 ∧
    (∀ row ∈ (save_snapshots (save_snapshots st [s1]).store [s2]).store.rows,
      row.aggregateId = snapIdentity s2 → row.aggregateData = s2.payload) ∧
    (∀ row ∈ (save_snapshots st [s1]).store.rows,
      row.aggregateId = snapIdentity s2 →
        ({ row with aggregateData := s2.payload } : SnapRow) ∈
          (save_snapshots (save_snapshots st [s1]).store [s2]).store.rows) ∧
    (∀ row ∈ (save_snapshots st [s1]).store.rows,
      row.aggregateId ≠ snapIdentity s2 →
        row ∈ (save_snapshots (save_snapshots st [s1]).store [s2]).store.rows) ∧
    (save_snapshots (save_snapshots st [s1]).store [s2]).store.wf := by
  have hwf1 : (upsertSnapshot st s1).wf := upsert_wf st s1 hwf
  exact ⟨upsert_idCount (upsertSnapshot st s1) s2 hwf1,
    upsert_payload (upsertSnapshot st s1) s2,
    upsert_frame_conflict (upsertSnapshot st s1) s2,
    upsert_frame_other (upsertSnapshot st s1) s2,
    upsert_wf (upsertSnapshot st s1) s2 hwf1⟩

/-- Witness for C6: saving `Account:a1` twice on a fresh store leaves
exactly one `Account:a1` row and it holds the second payload. -/
theorem snapshot_upsert_spec_witness :
    idCount (save_snapshots (save_snapshots emptySnapStore [exampleSnap1]).store
        [exampleSnap2]).store (snapIdentity exampleSnap2) = 1 ∧
    ∀ row ∈ (save_snapshots (save_snapshots emptySnapStore [exampleSnap1]).store
        [exampleSnap2]).store.rows,
      row.aggregateId = snapIdentity exampleSnap2 →
        row.aggregateData = exampleSnap2.payload := by
  have h := snapshot_upsert_spec emptySnapStore exampleSnap1 exampleSnap2
    List.nodup_nil rfl
  exact ⟨h.1, h.2.1⟩

/-! ## C10 — concurrent pool initialization -/

theorem get?_set_self_of_get? {l : List ThreadPc} {i : Nat} {old : ThreadPc}
    (h : l.get? i = some old) (v : ThreadPc) : (l.set i v).get? i = some v := by
  obtain ⟨hlt, _⟩ := List.get?_eq_some.mp h
  exact List.get?_set_eq_of_lt v hlt

theorem poolInv_init (n : Nat) : PoolInv (initPoolState n) := by
  left
  refine ⟨rfl, rfl, Or.inl ⟨rfl, ?_⟩⟩
  intro j pc h
  exact List.eq_of_mem_replicate (List.get?_mem h)

theorem poolStep_inv {s t : PoolState} (hstep : PoolStep s t) (hinv : PoolInv s) :
    PoolInv t := by
  cases hstep with
  | acquire i hlock hpc =>
    rcases hinv with ⟨hpool, hboots, hA⟩ | ⟨hpool, hboots, j0, hj0, _, _⟩ |
        ⟨hpool, hboots, hC⟩
    · rcases hA with ⟨_, hall⟩ | ⟨j0, hj0, _, _⟩
      · left
        refine ⟨hpool, hboots, Or.inr ⟨i, rfl, get?_set_self_of_get? hpc ThreadPc.check, ?_⟩⟩
        intro j pc hne hj
        rw [List.get?_set_ne _ _ (Ne.symm hne)] at hj
        exact hall j pc hj
      · rw [hlock] at hj0
        exact Option.noConfusion hj0
    · rw [hlock] at hj0
      exact Option.noConfusion hj0
    · rcases hC with ⟨_, hall⟩ | ⟨j0, hj0, _, _⟩
      · right
        right
        refine ⟨hpool, hboots,
          Or.inr ⟨i, rfl, Or.inl (get?_set_self_of_get? hpc ThreadPc.check), ?_⟩⟩
        intro j pc hne hj
        rw [List.get?_set_ne _ _ (Ne.symm hne)] at hj
        exact hall j pc hj
      · rw [hlock] at hj0
        exact Option.noConfusion hj0
  | checkHit i hlock hpc hpool =>
    rcases hinv with ⟨hpool2, _, _⟩ | ⟨hpool2, _, _⟩ | ⟨hpool2, hboots, hC⟩
    · rw [hpool] at hpool2
      exact Bool.noConfusion hpool2
    · rw [hpool] at hpool2
      exact Bool.noConfusion hpool2
    · rcases hC with ⟨hnone, _⟩ | ⟨j0, hj0, _, hothers⟩
      · rw [hlock] at hnone
        exact Option.noConfusion hnone
      · have hji : j0 = i := Option.some.inj (hj0.symm.trans hlock)
        subst hji
        right
        right
        refine ⟨hpool2, hboots,
          Or.inr ⟨j0, hj0, Or.inr (get?_set_self_of_get? hpc ThreadPc.unlock), ?_⟩⟩
        intro j pc hne hj
        rw [List.get?_set_ne _ _ (Ne.symm hne)] at hj
        exact hothers j pc hne hj
  | createAndBoot i hlock hpc hpool =>
    rcases hinv with ⟨hpool2, hboots, hA⟩ | ⟨_, _, j0, hj0, hj0pc, _⟩ | ⟨hpool2, _, _⟩
    · rcases hA with ⟨hnone, _⟩ | ⟨j0, hj0, _, hothers⟩
      · rw [hlock] at hnone
        exact Option.noConfusion hnone
      · have hji : j0 = i := Option.some.inj (hj0.symm.trans hlock)
        subst hji
        right
        left
        refine ⟨hpool, ?_, j0, hj0, get?_set_self_of_get? hpc ThreadPc.setPool, ?_⟩
        · show s.boots + 1 = 1
          rw [hboots]
        · intro j pc hne hj
          rw [List.get?_set_ne _ _ (Ne.symm hne)] at hj
          exact hothers j pc hne hj
    · have hji : j0 = i := Option.some.inj (hj0.symm.trans hlock)
      subst hji
      rw [hpc] at hj0pc
      exact ThreadPc.noConfusion (Option.some.inj hj0pc)
    · rw [hpool] at hpool2
      exact Bool.noConfusion hpool2
  | assignPool i hlock hpc =>
    rcases hinv with ⟨_, _, hA⟩ | ⟨_, hboots, j0, hj0, hj0pc, hothers⟩ | ⟨_, _, hC⟩
    · rcases hA with ⟨hnone, _⟩ | ⟨j0, hj0, hj0pc, _⟩
      · rw [hlock] at hnone
        exact Option.noConfusion hnone
      · have hji : j0 = i := Option.some.inj (hj0.symm.trans hlock)
        subst hji
        rw [hpc] at hj0pc
        exact ThreadPc.noConfusion (Option.some.inj hj0pc)
    · have hji : j0 = i := Option.some.inj (hj0.symm.trans hlock)
      subst hji
      right
      right
      refine ⟨rfl, hboots,
        Or.inr ⟨j0, hj0, Or.inr (get?_set_self_of_get? hpc ThreadPc.unlock), ?_⟩⟩
      intro j pc hne hj
      rw [List.get?_set_ne _ _ (Ne.symm hne)] at hj
      exact Or.inl (hothers j pc hne hj)
    · rcases hC with ⟨hnone, _⟩ | ⟨j0, hj0, hj0pc, _⟩
      · rw [hlock] at hnone
        exact Option.noConfusion hnone
      · have hji : j0 = i := Option.some.inj (hj0.symm.trans hlock)
        subst hji
        rcases hj0pc with hcheck | hunlock
        · rw [hpc] at hcheck
          exact ThreadPc.noConfusion (Option.some.inj hcheck)
        · rw [hpc] at hunlock
          exact ThreadPc.noConfusion (Option.some.inj hunlock)
  | release i hlock hpc =>
    rcases hinv with ⟨_, _, hA⟩ | ⟨_, _, j0, hj0, hj0pc, _⟩ | ⟨hpool2, hboots, hC⟩
    · rcases hA with ⟨hnone, _⟩ | ⟨j0, hj0, hj0pc, _⟩
      · rw [hlock] at hnone
        exact Option.noConfusion hnone
      · have hji : j0 = i := Option.some.inj (hj0.symm.trans hlock)
        subst hji
        rw [hpc] at hj0pc
        exact ThreadPc.noConfusion (Option.some.inj hj0pc)
    · have hji : j0 = i := Option.some.inj (hj0.symm.trans hlock)
      subst hji
      rw [hpc] at hj0pc
      exact ThreadPc.noConfusion (Option.some.inj hj0pc)
    · rcases hC with ⟨hnone, _⟩ | ⟨j0, hj0, _, hothers⟩
      · rw [hlock] at hnone
        exact Option.noConfusion hnone
      · have hji : j0 = i := Option.some.inj (hj0.symm.trans hlock)
        subst hji
        right
        right
        refine ⟨hpool2, hboots, Or.inl ⟨rfl, ?_⟩⟩
        intro j pc hj
        by_cases hne : j = j0
        · subst hne
          rw [get?_set_self_of_get? hpc ThreadPc.done] at hj
          exact Or.inr (Option.some.inj hj).symm
        · rw [List.get?_set_ne _ _ (fun hh => hne hh.symm)] at hj
          exact hothers j pc hne hj

theorem poolReachable_inv {n : Nat} {s : PoolState} (h : PoolReachable n s) : PoolInv s := by
  induction h with
  | refl => exact poolInv_init n
  | tail hsteps hstep ih => exact poolStep_inv hstep ih

theorem poolReachable_length {n : Nat} {s : PoolState} (h : PoolReachable n s) :
    s.pcs.length = n := by
  induction h with
  | refl => exact List.length_replicate n _
  | tail hsteps hstep ih =>
    cases hstep <;> simpa only [List.length_set] using ih

/-- C10: under every interleaving of concurrent first-time callers of
`__get_pool`, the pool-creation-plus-schema-bootstrap runs at most once at
every reachable state, and exactly once (with the pool assigned) once all
callers have returned; and once the pool exists, no step of any caller
creates a pool or bootstraps again — the lock-guarded region then only
reads the does-a-pool-exist flag. -/
theorem pool_boot_once (n : Nat) (s : PoolState) (hreach : PoolReachable n s) :
    s.boots ≤ 1 ∧
    (s.allPcs (fun pc => pc = .done) → 0 < n → s.boots = 1 ∧ s.pool = true) ∧
    (s.pool = true → ∀ t, PoolStep s t → t.boots = s.boots ∧ t.pool = true) := by
  have hinv := poolReachable_inv hreach
  refine ⟨?_, ?_, ?_⟩
  · rcases hinv with ⟨_, hb, _⟩ | ⟨_, hb, _⟩ | ⟨_, hb, _⟩ <;> omega
  · intro hdone hn
    rcases hinv with ⟨hpool, hboots, hA⟩ | ⟨hpool, hboots, j0, hj0, hj0pc, _⟩ |
        ⟨hpool, hboots, _⟩
    · exfalso
      have hlen : s.pcs.length = n := poolReachable_length hreach
      have hlen0 : 0 < s.pcs.length := by
        rw [hlen]
        exact hn
      have h0 : s.pcs.get? 0 = some (s.pcs.get ⟨0, hlen0⟩) := List.get?_eq_get hlen0
      have hpc0 := hdone 0 _ h0
      rcases hA with ⟨_, hall⟩ | ⟨j0, _, hj0pc, _⟩
      · have hidle := hall 0 _ h0
        rw [hpc0] at hidle
        exact ThreadPc.noConfusion hidle
      · have hd := hdone j0 _ hj0pc
        exact ThreadPc.noConfusion hd
    · have hd := hdone j0 _ hj0pc
      exact ThreadPc.noConfusion hd
    · exact ⟨hboots, hpool⟩
  · intro hpool t hstep
    cases hstep with
    | acquire i h1 h2 => exact ⟨rfl, hpool⟩
    | checkHit i h1 h2 h3 => exact ⟨rfl, hpool⟩
    | createAndBoot i h1 h2 h3 =>
      rw [hpool] at h3
      exact Bool.noConfusion h3
    | assignPool i h1 h2 => exact ⟨rfl, rfl⟩
    | release i h1 h2 => exact ⟨rfl, hpool⟩

/-- Witness for C10: a single caller runs acquire, create-and-bootstrap,
pool assignment and release; in the final state the bootstrap has run
exactly once and the pool exists. -/
theorem pool_boot_once_witness :
    (⟨none, true, 1, [ThreadPc.done]⟩ : PoolState).boots = 1 ∧
    (⟨none, true, 1, [ThreadPc.done]⟩ : PoolState).pool = true := by
  have r1 : PoolReachable 1 ⟨some 0, false, 0, [ThreadPc.check]⟩ :=
    Relation.ReflTransGen.tail Relation.ReflTransGen.refl
      (PoolStep.acquire _ 0 rfl rfl)
  have r2 : PoolReachable 1 ⟨some 0, false, 1, [ThreadPc.setPool]⟩ :=
    Relation.ReflTransGen.tail r1 (PoolStep.createAndBoot _ 0 rfl rfl rfl)
  have r3 : PoolReachable 1 ⟨some 0, true, 1, [ThreadPc.unlock]⟩ :=
    Relation.ReflTransGen.tail r2 (PoolStep.assignPool _ 0 rfl rfl)
  have r4 : PoolReachable 1 ⟨none, true, 1, [ThreadPc.done]⟩ :=
    Relation.ReflTransGen.tail r3 (PoolStep.release _ 0 rfl rfl)
  have hdone : (⟨none, true, 1, [ThreadPc.done]⟩ : PoolState).allPcs
      (fun pc => pc = .done) := by
    intro j pc h
    cases j with
    | zero => exact (Option.some.inj h).symm
    | succ m => exact Option.noConfusion h
  exact (pool_boot_once 1 _ r4).2.1 hdone Nat.one_pos

end Money
